import Mathlib

/-!
Verification of the adaptive-estimation core of the psychophysics repository:
a shallow embedding in Lean 4 of

  * `src/experiments/noGoController.js` — the homeostatic catch-trial ("No-Go")
    rate controller, and
  * `src/experiments/adaptiveQuest.js` — the context-aware QUEST+ wrapper
    (context bins, Weibull psychometric function, log-normal prior shaping,
    stimulus-proposal refinement scan, outcome recording, posterior export).

JavaScript numbers are modelled as real numbers (`ℝ`).  The external
`jsQuestPlus` engine library is not part of the repository, so per-engine
operations are abstracted into a record of operations (`EngineOps`) whose
fallible calls return `Except Unit` (an `Except.error` models a thrown
JavaScript exception, caught by the `try`/`catch` blocks in the source).
-/

namespace Psychophysics

noncomputable section

/-! ## NoGo controller (src/experiments/noGoController.js) -/

/-- The controller configuration record, `cfg` in the source (fields
`pTargetFA`, `fBase`, `fMin`, `fMax`, `Kp`, `emaAlpha`). -/
structure NGConfig where
  pTargetFA : ℝ
  fBase : ℝ
  fMin : ℝ
  fMax : ℝ
  Kp : ℝ
  emaAlpha : ℝ

/-- The concrete configuration literal in the source. -/
def cfg : NGConfig :=
  { pTargetFA := 0.05, fBase := 0.18, fMin := 0.1, fMax := 0.45
    Kp := 2.0, emaAlpha := 0.12 }

/-- The mutable controller state: `faEma` (null until the first catch-trial
outcome), `nNoGo`, `nFA`. -/
structure NGState where
  faEma : Option ℝ
  nNoGo : ℕ
  nFA : ℕ

/-- The initial state (`faEma = null; nNoGo = 0; nFA = 0`). -/
def initNG : NGState := ⟨none, 0, 0⟩

/-- `onTrialEnd({ isNoGo, responded })` from the source: non-catch trials
return immediately; catch trials bump the counters and fold the responded
indicator into the EMA. -/
def onTrialEnd (c : NGConfig) (st : NGState) (isNoGo responded : Bool) : NGState :=
  if !isNoGo then st
  else
    let obs : ℝ := if responded then 1 else 0
    { faEma := some (match st.faEma with
        | none => obs
        | some e => (1 - c.emaAlpha) * e + c.emaAlpha * obs)
      nNoGo := st.nNoGo + 1
      nFA := st.nFA + (if responded then 1 else 0) }

/-- `estFA()` from the source: the EMA if a catch-trial outcome has been
observed, else the configured target rate. -/
def estFA (c : NGConfig) (st : NGState) : ℝ :=
  match st.faEma with
  | none => c.pTargetFA
  | some e => e

/-- `pNoGo()` from the source: proportional term on the floored error,
then the two sequential clamping `if`s. -/
def pNoGo (c : NGConfig) (st : NGState) : ℝ :=
  let err := max 0 (estFA c st - c.pTargetFA)
  let f := c.fBase + c.Kp * err
  let f1 := if f < c.fMin then c.fMin else f
  if f1 > c.fMax then c.fMax else f1

/-- One catch trial with `responded = true`, at the concrete configuration. -/
def stepTrue (st : NGState) : NGState := onTrialEnd cfg st true true

/-- One catch trial with `responded = false`, at the concrete configuration. -/
def stepFalse (st : NGState) : NGState := onTrialEnd cfg st true false

/-- Folding a whole trial list `(isNoGo, responded)` through `onTrialEnd`. -/
def runTrials (c : NGConfig) (st : NGState) : List (Bool × Bool) → NGState
  | [] => st
  | t :: rest => runTrials c (onTrialEnd c st t.1 t.2) rest

/-! ## Basic controller lemmas -/

lemma onTrialEnd_notNoGo (c : NGConfig) (st : NGState) (responded : Bool) :
    onTrialEnd c st false responded = st := rfl

lemma onTrialEnd_faEma (c : NGConfig) (st : NGState) (responded : Bool) :
    (onTrialEnd c st true responded).faEma =
      some (match st.faEma with
        | none => (if responded then (1 : ℝ) else 0)
        | some e => (1 - c.emaAlpha) * e + c.emaAlpha * (if responded then 1 else 0)) := by
  simp [onTrialEnd]

/-- The clamp shape of `pNoGo` at the concrete configuration. -/
def pn (x : ℝ) : ℝ := min 0.45 (0.18 + 2 * max 0 (x - 0.05))

/-- The two sequential clamping `if`s of `pNoGo` compute the usual
`min`/`max` clamp whenever the bounds are ordered. -/
lemma seqClamp_eq_minmax (lo hi f : ℝ) (h : lo ≤ hi) :
    (if (if f < lo then lo else f) > hi then hi else (if f < lo then lo else f))
      = min hi (max lo f) := by
  rcases lt_or_le f lo with hf | hf
  · rw [if_pos hf, max_eq_left hf.le, if_neg (not_lt.mpr h), min_eq_right h]
  · rw [if_neg (not_lt.mpr hf), max_eq_right hf]
    rcases lt_or_le hi f with h2 | h2
    · rw [if_pos h2, min_eq_left h2.le]
    · rw [if_neg (not_lt.mpr h2), min_eq_right h2]

lemma pNoGo_eq_clamp (c : NGConfig) (st : NGState) (h : c.fMin ≤ c.fMax) :
    pNoGo c st
      = min c.fMax (max c.fMin (c.fBase + c.Kp * max 0 (estFA c st - c.pTargetFA))) := by
  simp only [pNoGo]
  exact seqClamp_eq_minmax c.fMin c.fMax _ h

lemma pNoGo_eq_pn (st : NGState) : pNoGo cfg st = pn (estFA cfg st) := by
  rw [pNoGo_eq_clamp cfg st (by norm_num [cfg])]
  generalize estFA cfg st = x
  have h1 : (0 : ℝ) ≤ max 0 (x - cfg.pTargetFA) := le_max_left _ _
  have hmin : cfg.fMin ≤ cfg.fBase + cfg.Kp * max 0 (x - cfg.pTargetFA) := by
    have h2 : cfg.fMin ≤ cfg.fBase := by norm_num [cfg]
    have h3 : (0 : ℝ) ≤ cfg.Kp := by norm_num [cfg]
    nlinarith
  rw [max_eq_right hmin, show cfg.fMax = (0.45 : ℝ) from by norm_num [cfg],
    show cfg.fBase = (0.18 : ℝ) from by norm_num [cfg],
    show cfg.Kp = (2 : ℝ) from by norm_num [cfg],
    show cfg.pTargetFA = (0.05 : ℝ) from by norm_num [cfg]]
  rfl

lemma pn_mono : Monotone pn := by
  intro a b hab
  unfold pn
  have : max 0 (a - 0.05) ≤ max 0 (b - 0.05) := by
    apply max_le_max le_rfl; linarith
  apply min_le_min le_rfl
  nlinarith

lemma pn_high {x : ℝ} (hx : 0.185 ≤ x) : pn x = 0.45 := by
  unfold pn
  have h1 : max 0 (x - 0.05) = x - 0.05 := max_eq_right (by linarith)
  rw [h1, min_eq_left (by linarith)]

lemma pn_low {x : ℝ} (hx : x ≤ 0.05) : pn x = 0.18 := by
  unfold pn
  have h1 : max 0 (x - 0.05) = 0 := max_eq_left (by linarith)
  rw [h1]
  norm_num

/-! ## EMA closed forms under constant-outcome catch-trial streams -/

lemma stepTrue_faEma (st : NGState) :
    (stepTrue st).faEma = some (match st.faEma with
      | none => (1 : ℝ)
      | some e => 0.88 * e + 0.12) := by
  cases h : st.faEma with
  | none => simp [stepTrue, onTrialEnd, h]
  | some e => simp [stepTrue, onTrialEnd, h, cfg]; norm_num

lemma stepFalse_faEma (st : NGState) :
    (stepFalse st).faEma = some (match st.faEma with
      | none => (0 : ℝ)
      | some e => 0.88 * e) := by
  cases h : st.faEma with
  | none => simp [stepFalse, onTrialEnd, h]
  | some e => simp [stepFalse, onTrialEnd, h, cfg]; norm_num

lemma emaTrue_closed (n : ℕ) (st : NGState) (e : ℝ) (h : st.faEma = some e) :
    (stepTrue^[n] st).faEma = some (1 - 0.88 ^ n * (1 - e)) := by
  induction n with
  | zero => simp [h]
  | succ n ih =>
      rw [Function.iterate_succ_apply', stepTrue_faEma, ih]
      congr 1
      ring

lemma emaFalse_closed (n : ℕ) (st : NGState) (e : ℝ) (h : st.faEma = some e) :
    (stepFalse^[n] st).faEma = some (0.88 ^ n * e) := by
  induction n with
  | zero => simp [h]
  | succ n ih =>
      rw [Function.iterate_succ_apply', stepFalse_faEma, ih]
      congr 1
      ring

lemma estFA_of_faEma {st : NGState} {e : ℝ} (h : st.faEma = some e) :
    estFA cfg st = e := by
  simp [estFA, h]

lemma estFA_of_none {st : NGState} (h : st.faEma = none) :
    estFA cfg st = cfg.pTargetFA := by
  simp [estFA, h]

/-- One responded-`true` catch trial never lowers the catch probability. -/
lemma pNoGo_stepTrue_mono (st : NGState) : pNoGo cfg st ≤ pNoGo cfg (stepTrue st) := by
  rw [pNoGo_eq_pn, pNoGo_eq_pn]
  cases h : st.faEma with
  | none =>
      rw [estFA_of_none h, estFA_of_faEma (by rw [stepTrue_faEma, h])]
      rw [show cfg.pTargetFA = (0.05 : ℝ) from by norm_num [cfg], pn_low le_rfl,
        pn_high (by norm_num)]
      norm_num
  | some e =>
      rw [estFA_of_faEma h, estFA_of_faEma (by rw [stepTrue_faEma, h])]
      rcases le_or_lt e 1 with he | he
      · exact pn_mono (by nlinarith)
      · rw [pn_high (by nlinarith), pn_high (by nlinarith)]

/-- After enough responded-`true` catch trials, the EMA stays above 0.185 and
the catch probability is pinned to the maximum. -/
lemma pNoGo_stepTrue_saturates (st : NGState) :
    ∃ N, ∀ n, N ≤ n → pNoGo cfg (stepTrue^[n] st) = 0.45 := by
  have key : ∀ (st' : NGState) (e : ℝ), st'.faEma = some e →
      ∃ N, ∀ n, N ≤ n → pNoGo cfg (stepTrue^[n] st') = 0.45 := by
    intro st' e he
    rcases le_or_lt (1 - e) 0 with h1 | h1
    · refine ⟨0, fun n _ => ?_⟩
      rw [pNoGo_eq_pn, estFA_of_faEma (emaTrue_closed n st' e he)]
      have hp : (0 : ℝ) ≤ 0.88 ^ n := by positivity
      have : 0.88 ^ n * (1 - e) ≤ 0 := mul_nonpos_of_nonneg_of_nonpos hp h1
      exact pn_high (by nlinarith)
    · obtain ⟨N, hN⟩ := exists_pow_lt_of_lt_one
        (show (0 : ℝ) < 0.815 / (1 - e) from by positivity)
        (show (0.88 : ℝ) < 1 from by norm_num)
      refine ⟨N, fun n hn => ?_⟩
      rw [pNoGo_eq_pn, estFA_of_faEma (emaTrue_closed n st' e he)]
      have hmono : (0.88 : ℝ) ^ n ≤ 0.88 ^ N :=
        pow_le_pow_of_le_one (by norm_num) (by norm_num) hn
      have hb : (0.88 : ℝ) ^ n * (1 - e) ≤ 0.815 := by
        have h2 : (0.88 : ℝ) ^ N * (1 - e) < 0.815 := by
          rw [lt_div_iff₀ h1] at hN
          nlinarith
        nlinarith [mul_le_mul_of_nonneg_right hmono h1.le]
      exact pn_high (by nlinarith)
  cases h : st.faEma with
  | some e => exact key st e h
  | none =>
      obtain ⟨N, hN⟩ := key (stepTrue st) 1 (by rw [stepTrue_faEma, h])
      refine ⟨N + 1, fun n hn => ?_⟩
      obtain ⟨m, rfl⟩ : ∃ m, n = m + 1 := ⟨n - 1, by omega⟩
      rw [Function.iterate_succ_apply]
      exact hN m (by omega)

/-- After enough responded-`false` catch trials, the EMA stays at or below the
target rate, the error floors at 0, and the catch probability equals the
baseline. -/
lemma pNoGo_stepFalse_saturates (st : NGState) :
    ∃ N, ∀ n, N ≤ n → pNoGo cfg (stepFalse^[n] st) = 0.18 := by
  have key : ∀ (st' : NGState) (e : ℝ), st'.faEma = some e →
      ∃ N, ∀ n, N ≤ n → pNoGo cfg (stepFalse^[n] st') = 0.18 := by
    intro st' e he
    rcases le_or_lt e 0 with h1 | h1
    · refine ⟨0, fun n _ => ?_⟩
      rw [pNoGo_eq_pn, estFA_of_faEma (emaFalse_closed n st' e he)]
      have hp : (0 : ℝ) ≤ 0.88 ^ n := by positivity
      have : 0.88 ^ n * e ≤ 0 := mul_nonpos_of_nonneg_of_nonpos hp h1
      exact pn_low (by nlinarith)
    · obtain ⟨N, hN⟩ := exists_pow_lt_of_lt_one
        (show (0 : ℝ) < 0.05 / e from by positivity)
        (show (0.88 : ℝ) < 1 from by norm_num)
      refine ⟨N, fun n hn => ?_⟩
      rw [pNoGo_eq_pn, estFA_of_faEma (emaFalse_closed n st' e he)]
      have hmono : (0.88 : ℝ) ^ n ≤ 0.88 ^ N :=
        pow_le_pow_of_le_one (by norm_num) (by norm_num) hn
      have hb : (0.88 : ℝ) ^ n * e ≤ 0.05 := by
        have h2 : (0.88 : ℝ) ^ N * e < 0.05 := by
          rw [lt_div_iff₀ h1] at hN
          nlinarith
        nlinarith [mul_le_mul_of_nonneg_right hmono h1.le]
      exact pn_low (by nlinarith)
  cases h : st.faEma with
  | some e => exact key st e h
  | none =>
      obtain ⟨N, hN⟩ := key (stepFalse st) 0 (by rw [stepFalse_faEma, h])
      refine ⟨N + 1, fun n hn => ?_⟩
      obtain ⟨m, rfl⟩ : ∃ m, n = m + 1 := ⟨n - 1, by omega⟩
      rw [Function.iterate_succ_apply]
      exact hN m (by omega)

/-! ## Reachable-state invariant of the controller -/

/-- The controller invariant: false alarms never outnumber catch trials, and
the EMA is null or lies in `[0, 1]`. -/
def NGInv (st : NGState) : Prop :=
  st.nFA ≤ st.nNoGo ∧ (st.faEma = none ∨ ∃ e, st.faEma = some e ∧ 0 ≤ e ∧ e ≤ 1)

lemma NGInv_step (st : NGState) (isNoGo responded : Bool) (h : NGInv st) :
    NGInv (onTrialEnd cfg st isNoGo responded) := by
  cases isNoGo with
  | false => simpa [onTrialEnd] using h
  | true =>
      obtain ⟨hc, hema⟩ := h
      constructor
      · simp only [onTrialEnd]
        cases responded <;> simp <;> omega
      · right
        simp only [onTrialEnd]
        refine ⟨_, rfl, ?_⟩
        have hobs0 : (0 : ℝ) ≤ (if responded = true then (1 : ℝ) else 0) := by
          cases responded <;> norm_num
        have hobs1 : (if responded = true then (1 : ℝ) else 0) ≤ 1 := by
          cases responded <;> norm_num
        rcases hema with hnone | ⟨e, he, he0, he1⟩
        · simp only [hnone]
          exact ⟨hobs0, hobs1⟩
        · simp only [he]
          have ha : cfg.emaAlpha = 0.12 := by norm_num [cfg]
          rw [ha]
          constructor <;> nlinarith

lemma NGInv_runTrials (c : NGConfig) : ∀ (trials : List (Bool × Bool)) (st : NGState),
    c = cfg → NGInv st → NGInv (runTrials c st trials) := by
  intro trials
  induction trials with
  | nil => intro st _ h; exact h
  | cons t rest ih =>
      intro st hc h
      subst hc
      exact ih _ rfl (NGInv_step st t.1 t.2 h)

/-! ## Claim theorems for the rate controller -/

/-- C2: for every controller configuration with ordered clamp bounds and every
controller state, `pNoGo` equals `baseline + gain * max 0 (estimatedFA -
targetRate)` clamped to `[fMin, fMax]`, where the estimated false-alarm rate
`estFA` is the EMA once a catch-trial outcome has been observed and otherwise
the configured target rate; consequently the returned value never leaves
`[fMin, fMax]`, whatever the EMA history produced for the state. -/
theorem C2_pNoGo_clamped_formula (c : NGConfig) (st : NGState) (h : c.fMin ≤ c.fMax) :
    pNoGo c st
        = min c.fMax (max c.fMin (c.fBase + c.Kp * max 0 (estFA c st - c.pTargetFA)))
      ∧ c.fMin ≤ pNoGo c st ∧ pNoGo c st ≤ c.fMax
      ∧ (st.faEma = none → estFA c st = c.pTargetFA)
      ∧ (∀ e, st.faEma = some e → estFA c st = e) := by
  have hq := pNoGo_eq_clamp c st h
  refine ⟨hq, ?_, ?_, ?_, ?_⟩
  · rw [hq]
    exact le_min h (le_max_left _ _)
  · rw [hq]
    exact min_le_left _ _
  · intro hnone
    simp [estFA, hnone]
  · intro e he
    simp [estFA, he]

/-- C2 witness: the concrete source configuration and the initial state. -/
theorem C2_pNoGo_clamped_formula_witness :
    cfg.fMin ≤ cfg.fMax
      ∧ (pNoGo cfg initNG
            = min cfg.fMax
                (max cfg.fMin (cfg.fBase + cfg.Kp * max 0 (estFA cfg initNG - cfg.pTargetFA)))
          ∧ cfg.fMin ≤ pNoGo cfg initNG ∧ pNoGo cfg initNG ≤ cfg.fMax
          ∧ (initNG.faEma = none → estFA cfg initNG = cfg.pTargetFA)
          ∧ (∀ e, initNG.faEma = some e → estFA cfg initNG = e)) :=
  ⟨by norm_num [cfg], C2_pNoGo_clamped_formula cfg initNG (by norm_num [cfg])⟩

/-- C8: from any controller state, under catch trials that are all responded,
the catch probability is non-decreasing trial-over-trial and eventually equals
and stays at the configured maximum 0.45; under catch trials that are all
unresponded it eventually equals and stays at the configured baseline 0.18
(the error term floors at 0). -/
theorem C8_controller_convergence (st : NGState) :
    (∀ n : ℕ, pNoGo cfg (stepTrue^[n] st) ≤ pNoGo cfg (stepTrue^[n + 1] st))
      ∧ (∃ N, ∀ n, N ≤ n → pNoGo cfg (stepTrue^[n] st) = cfg.fMax)
      ∧ (∃ N, ∀ n, N ≤ n → pNoGo cfg (stepFalse^[n] st) = cfg.fBase) := by
  refine ⟨?_, ?_, ?_⟩
  · intro n
    rw [Function.iterate_succ_apply']
    exact pNoGo_stepTrue_mono (stepTrue^[n] st)
  · obtain ⟨N, hN⟩ := pNoGo_stepTrue_saturates st
    exact ⟨N, fun n hn => by rw [hN n hn]; norm_num [cfg]⟩
  · obtain ⟨N, hN⟩ := pNoGo_stepFalse_saturates st
    exact ⟨N, fun n hn => by rw [hN n hn]; norm_num [cfg]⟩

/-- C9: a trial classified as non-catch (`isNoGo = false`) leaves all three
state fields of the controller unchanged, whatever the responded flag. -/
theorem C9_nonCatch_noop (c : NGConfig) (st : NGState) (responded : Bool) :
    onTrialEnd c st false responded = st :=
  onTrialEnd_notNoGo c st responded

/-- C10: after every finite sequence of `onTrialEnd` calls from the initial
state, `nFA ≤ nNoGo`, and the EMA is either null or a value in `[0, 1]`. -/
theorem C10_controller_invariant (trials : List (Bool × Bool)) :
    (runTrials cfg initNG trials).nFA ≤ (runTrials cfg initNG trials).nNoGo
      ∧ ((runTrials cfg initNG trials).faEma = none
          ∨ ∃ e, (runTrials cfg initNG trials).faEma = some e ∧ 0 ≤ e ∧ e ≤ 1) :=
  NGInv_runTrials cfg trials initNG rfl ⟨le_refl 0, Or.inl rfl⟩

/-! ## Context-aware QUEST+ wrapper (src/experiments/adaptiveQuest.js) -/

/-- `SOA_BINS`: half-open onset-asynchrony bins in milliseconds. -/
def SOA_BINS : List (ℝ × ℝ) := [(100, 200), (200, 350), (350, 550), (550, 900)]

/-- `ECC_BINS`: half-open eccentricity bins in pixels. -/
def ECC_BINS : List (ℝ × ℝ) := [(0, 80), (80, 140), (140, 200), (200, 300)]

/-- `inRange(x,[lo,hi])`: membership in the half-open range `[lo, hi)`. -/
def inRange (x : ℝ) (b : ℝ × ℝ) : Prop := b.1 ≤ x ∧ x < b.2

instance (x : ℝ) : DecidablePred (inRange x) := fun b =>
  inferInstanceAs (Decidable (b.1 ≤ x ∧ x < b.2))

/-- JavaScript `Array.prototype.findIndex`: index of the first element
satisfying the predicate, `-1` when none does. -/
def findIndexJS {α : Type} (p : α → Prop) [DecidablePred p] : List α → ℤ
  | [] => -1
  | a :: rest =>
      if p a then 0
      else
        let r := findIndexJS p rest
        if r < 0 then -1 else r + 1

/-- Truncation toward zero, the rounding used by the JavaScript `%` operator. -/
def jsTrunc (x : ℝ) : ℤ := if 0 ≤ x then ⌊x⌋ else ⌈x⌉

/-- The JavaScript remainder operator `x % y` on numbers. -/
def jsMod (x y : ℝ) : ℝ := x - y * jsTrunc (x / y)

/-- `angGroup(thetaRad)`: cardinal sector of an angle, via
`(thetaRad*180/Math.PI + 360) % 360`. -/
def angGroup (thetaRad : ℝ) : String :=
  let d := jsMod (thetaRad * 180 / Real.pi + 360) 360
  if d < 45 ∨ d ≥ 315 then "E"
  else if d < 135 then "N"
  else if d < 225 then "W"
  else "S"

/-- The four `ANG_GROUPS` testers check `angGroup(th) === letter` for these
letters, in this order. -/
def ANG_LETTERS : List String := ["E", "N", "W", "S"]

/-- The context descriptor `{ soaMs, eccPx, thetaRad }`. -/
structure Context where
  soaMs : ℝ
  eccPx : ℝ
  thetaRad : ℝ

/-- The result `{ soaIdx, eccIdx, angIdx }` of `contextToIndices`; `-1` in a
component is the unmatched sentinel. -/
structure CtxIdx where
  soaIdx : ℤ
  eccIdx : ℤ
  angIdx : ℤ

/-- `contextToIndices`: linear `findIndex` scan per dimension. -/
def contextToIndices (ctx : Context) : CtxIdx :=
  { soaIdx := findIndexJS (inRange ctx.soaMs) SOA_BINS
    eccIdx := findIndexJS (inRange ctx.eccPx) ECC_BINS
    angIdx := findIndexJS (fun g => angGroup ctx.thetaRad = g) ANG_LETTERS }

/-- `linspace(a,b,n)`: `n` evenly spaced values from `a` with step
`(b-a)/(n-1)`. -/
def linspace (a b : ℝ) (n : ℕ) : List ℝ :=
  (List.range n).map fun i => a + i * ((b - a) / ((n : ℝ) - 1))

/-- `magnitudeGridDva = linspace(0.05, 2.50, 40)`, the alpha-candidate /
stimulus grid. -/
def magnitudeGridDva : List ℝ := linspace 0.05 2.50 40

/-- `pWeibull(stim, alpha, beta, guess, lapse)`, the Weibull psychometric
function `guess + (1-guess-lapse)*(1 - exp(-(stim/alpha)^beta))`. -/
def pWeibull (stim alpha beta guess lapse : ℝ) : ℝ :=
  guess + (1 - guess - lapse) * (1 - Real.exp (-((stim / alpha) ^ beta)))

/-- One log-normal density value of `alphaPriorOnGrid`:
`(1/(a*sigma*sqrt(2*PI))) * exp(-(log(a)-mu)^2/(2*sigma*sigma))`. -/
def lognormPdf (mu sigma a : ℝ) : ℝ :=
  (1 / (a * sigma * Real.sqrt (2 * Real.pi)))
    * Real.exp (-((Real.log a - mu) ^ 2) / (2 * sigma * sigma))

/-- `alphaPriorOnGrid(alphaGrid, soaIdx, eccIdx, angIdx, base, kSOA, kECC,
kANG, sigma)`: log-normal densities over the grid, normalized by their sum
(`reduce((x,y)=>x+y,0)`); the JavaScript guard `|| 1` replaces a zero sum by 1
before dividing. -/
def alphaPriorOnGrid (alphaGrid : List ℝ) (soaIdx eccIdx angIdx : ℕ) (base : ℝ)
    (kSOA kECC kANG sigma : ℝ) : List ℝ :=
  let scale := (1 + kSOA * soaIdx) * (1 + kECC * eccIdx) * (1 + kANG * angIdx)
  let mu := Real.log (base * scale)
  let pdf := alphaGrid.map (lognormPdf mu sigma)
  let S := pdf.foldl (· + ·) 0
  let Z := if S = 0 then 1 else S
  pdf.map fun p => p / Z

/-- `alphaPriorOnGrid` at the default arguments
`kSOA=0.20, kECC=0.20, kANG=0.05, sigma=0.35` used at the construction site. -/
def alphaPriorOnGridD (alphaGrid : List ℝ) (soaIdx eccIdx angIdx : ℕ) (base : ℝ) :
    List ℝ :=
  alphaPriorOnGrid alphaGrid soaIdx eccIdx angIdx base 0.20 0.20 0.05 0.35

/-- Modelled from the spec: "a uniform vector over the alpha grid", the
fallback the spec prescribes when every density is zero (the source has no
such fallback; this definition exists only to compare against it). -/
def uniformVectorSpec (alphaGrid : List ℝ) : List ℝ :=
  alphaGrid.map fun _ => 1 / (alphaGrid.length : ℝ)

/-- One step of the proposal-refinement loop
`if (d < bestDiff) { bestDiff = d; best = v }`, with `none` standing for the
initial `bestDiff = Infinity` (every real distance is below it). -/
def scanStep (d : ℝ → ℝ) (acc : ℝ × Option ℝ) (v : ℝ) : ℝ × Option ℝ :=
  match acc.2 with
  | none => (v, some (d v))
  | some b => if d v < b then (v, some (d v)) else acc

/-- The whole refinement loop: start from `best = chosen, bestDiff = Infinity`
and fold the grid. -/
def scanBest (d : ℝ → ℝ) (grid : List ℝ) (chosen : ℝ) : ℝ :=
  (grid.foldl (scanStep d) (chosen, none)).1

/-- Abstract interface of one external `jsQuestPlus` engine: the repository
does not contain the library, only calls into it.  `Except.error` models a
thrown exception; `Option.none` in an estimates result models a value that is
not an array (`Array.isArray` / optional-chaining guards in the source). -/
structure EngineOps (E : Type) where
  getStimParams : E → ℝ
  getEstimatesMode : E → Except Unit (Option (List ℝ))
  getEstimatesMean : E → Except Unit (Option (List ℝ))
  update : E → ℝ → ℕ → Except Unit E

/-- Nested-array access `engines[s][e][a]` (undefined modelled as `none`). -/
def gridGet? {E : Type} (g : List (List (List E))) (s e a : ℕ) : Option E :=
  ((g.get? s).bind fun rows => rows.get? e).bind fun cols => cols.get? a

/-- Functional update of `engines[s][e][a]` (the in-place mutation of the
engine by `update` is modelled by storing the returned engine back). -/
def gridSet {E : Type} (g : List (List (List E))) (s e a : ℕ) (x : E) :
    List (List (List E)) :=
  match g.get? s with
  | none => g
  | some rows =>
      match rows.get? e with
      | none => g
      | some cols => g.set s (rows.set e (cols.set a x))

/-- `suggestDeltaForContext(context, target)`: fallback 0.6 when any index is
unmatched; otherwise start from the engine's own proposal and, when a
well-formed mode estimate `[alpha, beta, guess, lapse]` is obtained, scan
`magnitudeGridDva` for the value whose `pWeibull` probability is closest to
the target.  `none` in the result models the TypeError a missing engine cell
would raise outside the `try` block. -/
def suggestDeltaForContext {E : Type} (ops : EngineOps E)
    (engines : List (List (List E))) (ctx : Context) (target : ℝ) : Option ℝ :=
  let idx := contextToIndices ctx
  if idx.soaIdx < 0 ∨ idx.eccIdx < 0 ∨ idx.angIdx < 0 then some 0.6
  else
    (gridGet? engines idx.soaIdx.toNat idx.eccIdx.toNat idx.angIdx.toNat).map fun eng =>
      let chosen := ops.getStimParams eng
      match ops.getEstimatesMode eng with
      | Except.error _ => chosen
      | Except.ok none => chosen
      | Except.ok (some est) =>
          if 4 ≤ est.length then
            scanBest
              (fun v => |pWeibull v (est.getD 0 0) (est.getD 1 0) (est.getD 2 0)
                (est.getD 3 0) - target|)
              magnitudeGridDva chosen
          else chosen

/-- `updateQuestWithOutcome(context, delta, responded)`: silent no-op on an
unmatched context; otherwise feed `(delta, responded ? 1 : 0)` to the cell's
engine, with any failure caught (`console.warn`) and the state left alone.
A missing engine cell also leaves the state alone, because the TypeError from
`eng.update` is raised inside the `try` block. -/
def updateQuestWithOutcome {E : Type} (ops : EngineOps E)
    (engines : List (List (List E))) (ctx : Context) (delta : ℝ) (responded : Bool) :
    List (List (List E)) :=
  let idx := contextToIndices ctx
  if idx.soaIdx < 0 ∨ idx.eccIdx < 0 ∨ idx.angIdx < 0 then engines
  else
    match gridGet? engines idx.soaIdx.toNat idx.eccIdx.toNat idx.angIdx.toNat with
    | none => engines
    | some eng =>
        match ops.update eng delta (if responded then 1 else 0) with
        | Except.error _ => engines
        | Except.ok eng' =>
            gridSet engines idx.soaIdx.toNat idx.eccIdx.toNat idx.angIdx.toNat eng'

/-- One record pushed by `exportPosteriors`:
`{ dim:'vector', i, j, k, alpha: est?.[0], beta: est?.[1] }` (absent JavaScript
values are `none`). -/
structure PosteriorRecord where
  dim : String
  i : ℕ
  j : ℕ
  k : ℕ
  alpha : Option ℝ
  beta : Option ℝ

/-- `exportPosteriors()`: nested `forEach` over all cells; each cell's mean
estimate is read inside `try { ... out.push(...) } catch {}`, so a throwing
cell pushes nothing at all. -/
def exportPosteriors {E : Type} (ops : EngineOps E)
    (engines : List (List (List E))) : List PosteriorRecord :=
  (engines.enum).flatMap fun p =>
    (p.2.enum).flatMap fun q =>
      (q.2.enum).filterMap fun r =>
        match ops.getEstimatesMean r.2 with
        | Except.error _ => none
        | Except.ok est =>
            some ⟨"vector", p.1, q.1, r.1,
              est.bind fun l => l.get? 0, est.bind fun l => l.get? 1⟩

/-! ## findIndex lemmas and bin lookup -/

lemma findIndexJS_dichotomy {α : Type} (p : α → Prop) [DecidablePred p] (l : List α) :
    findIndexJS p l = -1 ∨ 0 ≤ findIndexJS p l := by
  induction l with
  | nil => exact Or.inl rfl
  | cons a rest ih =>
      by_cases h : p a
      · right; simp [findIndexJS, h]
      · simp only [findIndexJS, if_neg h]
        rcases ih with h1 | h1
        · left; rw [if_pos (by omega)]
        · right; rw [if_neg (by omega)]; omega

lemma findIndexJS_eq_neg_one_iff {α : Type} (p : α → Prop) [DecidablePred p]
    (l : List α) : findIndexJS p l = -1 ↔ ∀ a ∈ l, ¬ p a := by
  induction l with
  | nil => simp [findIndexJS]
  | cons a rest ih =>
      by_cases h : p a
      · simp [findIndexJS, h]
      · simp only [findIndexJS, if_neg h, List.mem_cons]
        rcases findIndexJS_dichotomy p rest with h1 | h1
        · rw [if_pos (by omega : findIndexJS p rest < 0)]
          constructor
          · intro _ x hx
            rcases hx with rfl | hx
            · exact h
            · exact ih.mp h1 x hx
          · intro _; rfl
        · rw [if_neg (by omega : ¬ findIndexJS p rest < 0)]
          constructor
          · intro hc; omega
          · intro hall
            have h2 : findIndexJS p rest = -1 := ih.mpr fun x hx => hall x (Or.inr hx)
            omega

lemma findIndexJS_eq_of_first {α : Type} (p : α → Prop) [DecidablePred p] :
    ∀ (l : List α) (i : ℕ) (hi : i < l.length), p (l.get ⟨i, hi⟩) →
      (∀ j (hj : j < l.length), j < i → ¬ p (l.get ⟨j, hj⟩)) →
      findIndexJS p l = i := by
  intro l
  induction l with
  | nil => intro i hi; simp at hi
  | cons a rest ih =>
      intro i hi hp hmin
      cases i with
      | zero =>
          simp only [List.get] at hp
          simp [findIndexJS, hp]
      | succ i =>
          have ha : ¬ p a := by
            have := hmin 0 (by simp) (by omega)
            simpa using this
          have hrest : findIndexJS p rest = i := by
            refine ih i (by simpa using hi) (by simpa using hp) ?_
            intro j hj hji
            have := hmin (j + 1) (by simpa using Nat.succ_lt_succ hj) (by omega)
            simpa using this
          simp only [findIndexJS, if_neg ha, hrest]
          rw [if_neg (by omega)]
          omega

lemma head_lo_le (bins : List (ℝ × ℝ)) (hwf : ∀ b ∈ bins, b.1 ≤ b.2)
    (hord : bins.Pairwise fun b b' => b.2 ≤ b'.1) (b0 : ℝ × ℝ)
    (hb0 : bins.head? = some b0) : ∀ b ∈ bins, b0.1 ≤ b.1 := by
  cases bins with
  | nil => simp at hb0
  | cons hd tl =>
      have hhd : hd = b0 := by simpa using hb0
      subst hhd
      intro b hb
      rcases List.mem_cons.mp hb with rfl | hb
      · exact le_refl _
      · have h1 : hd.2 ≤ b.1 := (List.pairwise_cons.mp hord).1 b hb
        have h2 : hd.1 ≤ hd.2 := hwf hd (List.mem_cons_self _ _)
        linarith

lemma hi_le_last (bins : List (ℝ × ℝ)) (hwf : ∀ b ∈ bins, b.1 ≤ b.2)
    (hord : bins.Pairwise fun b b' => b.2 ≤ b'.1) (bl : ℝ × ℝ)
    (hbl : bins.getLast? = some bl) : ∀ b ∈ bins, b.2 ≤ bl.2 := by
  induction bins with
  | nil => simp at hbl
  | cons hd tl ih =>
      cases tl with
      | nil =>
          have : hd = bl := by simpa using hbl
          subst this
          intro b hb
          rcases List.mem_cons.mp hb with rfl | hb
          · exact le_refl _
          · simp at hb
      | cons h2 t2 =>
          have hbl' : (h2 :: t2).getLast? = some bl := by
            simpa [List.getLast?_cons_cons] using hbl
          have hwf' : ∀ b ∈ h2 :: t2, b.1 ≤ b.2 :=
            fun b hb => hwf b (List.mem_cons_of_mem _ hb)
          have hord' := (List.pairwise_cons.mp hord).2
          have htl := ih hwf' hord' hbl'
          intro b hb
          rcases List.mem_cons.mp hb with rfl | hb
          · have h1 : b.2 ≤ h2.1 :=
              (List.pairwise_cons.mp hord).1 h2 (List.mem_cons_self _ _)
            have h2wf : h2.1 ≤ h2.2 := hwf' h2 (List.mem_cons_self _ _)
            have h3 : h2.2 ≤ bl.2 := htl h2 (List.mem_cons_self _ _)
            linarith
          · exact htl b hb

/-- C5: for bins that are well-formed (`lo ≤ hi`) and ordered without overlap,
a value inside some bin's half-open `[lo, hi)` range yields that bin's index
under the `findIndex`/`inRange` scan of `contextToIndices`, while a value below
the first bin's `lo` or at or above the last bin's `hi` yields the unmatched
sentinel `-1`; no exception is possible (the scan is total). -/
theorem C5_bin_lookup (bins : List (ℝ × ℝ)) (x : ℝ)
    (hwf : ∀ b ∈ bins, b.1 ≤ b.2)
    (hord : bins.Pairwise fun b b' => b.2 ≤ b'.1) :
    (∀ i : Fin bins.length, inRange x (bins.get i) →
        findIndexJS (inRange x) bins = (i.1 : ℤ))
      ∧ (∀ b0, bins.head? = some b0 → x < b0.1 → findIndexJS (inRange x) bins = -1)
      ∧ (∀ bl, bins.getLast? = some bl → bl.2 ≤ x →
          findIndexJS (inRange x) bins = -1) := by
  have hpw := List.pairwise_iff_get.mp hord
  refine ⟨?_, ?_, ?_⟩
  · intro i hin
    refine findIndexJS_eq_of_first (inRange x) bins i.1 i.2 (by simpa using hin) ?_
    intro j hj hji
    have hle : (bins.get ⟨j, hj⟩).2 ≤ (bins.get i).1 := hpw ⟨j, hj⟩ i hji
    intro hcon
    have hxx : x < x := lt_of_lt_of_le hcon.2 (hle.trans hin.1)
    exact lt_irrefl x hxx
  · intro b0 hb0 hx
    rw [findIndexJS_eq_neg_one_iff]
    intro b hb hcon
    have hlo := head_lo_le bins hwf hord b0 hb0 b hb
    have : x < x := lt_of_lt_of_le (lt_of_lt_of_le hx hlo) hcon.1
    exact lt_irrefl x this
  · intro bl hbl hx
    rw [findIndexJS_eq_neg_one_iff]
    intro b hb hcon
    have hhi := hi_le_last bins hwf hord bl hbl b hb
    have : x < x := lt_of_lt_of_le hcon.2 (hhi.trans hx)
    exact lt_irrefl x this

/-- C5 witness: the concrete SOA bins of the source at the value 150 ms. -/
theorem C5_bin_lookup_witness :
    (∀ b ∈ SOA_BINS, b.1 ≤ b.2)
      ∧ (SOA_BINS.Pairwise fun b b' => b.2 ≤ b'.1)
      ∧ ((∀ i : Fin SOA_BINS.length, inRange 150 (SOA_BINS.get i) →
            findIndexJS (inRange 150) SOA_BINS = (i.1 : ℤ))
        ∧ (∀ b0, SOA_BINS.head? = some b0 → 150 < b0.1 →
            findIndexJS (inRange 150) SOA_BINS = -1)
        ∧ (∀ bl, SOA_BINS.getLast? = some bl → bl.2 ≤ 150 →
            findIndexJS (inRange 150) SOA_BINS = -1)) := by
  have hwf : ∀ b ∈ SOA_BINS, b.1 ≤ b.2 := by
    intro b hb
    simp only [SOA_BINS, List.mem_cons, List.not_mem_nil, or_false] at hb
    rcases hb with rfl | rfl | rfl | rfl <;> norm_num
  have hord : SOA_BINS.Pairwise fun b b' => b.2 ≤ b'.1 := by
    simp only [SOA_BINS, List.pairwise_cons, List.mem_cons, List.not_mem_nil, or_false,
      List.Pairwise.nil]
    norm_num
  exact ⟨hwf, hord, C5_bin_lookup SOA_BINS 150 hwf hord⟩

/-! ## The proposal-refinement scan is a first-minimum search -/

lemma scanBest_go (d : ℝ → ℝ) :
    ∀ (l : List ℝ) (b : ℝ),
      ∃ r, l.foldl (scanStep d) (b, some (d b)) = (r, some (d r))
        ∧ ((r = b ∧ ∀ v ∈ l, d b ≤ d v)
          ∨ ∃ l1 l2, l = l1 ++ r :: l2 ∧ d r < d b
              ∧ (∀ v ∈ l1, d r < d v) ∧ (∀ v ∈ l2, d r ≤ d v)) := by
  intro l
  induction l with
  | nil => exact fun b => ⟨b, rfl, Or.inl ⟨rfl, by simp⟩⟩
  | cons v rest ih =>
      intro b
      by_cases h : d v < d b
      · have hstep : scanStep d (b, some (d b)) v = (v, some (d v)) := by
          simp [scanStep, h]
        obtain ⟨r, hfold, hcase⟩ := ih v
        refine ⟨r, by rw [List.foldl_cons, hstep]; exact hfold, Or.inr ?_⟩
        rcases hcase with ⟨rfl, hall⟩ | ⟨l1, l2, heq, hrb, h1, h2⟩
        · exact ⟨[], rest, by simp, h, by simp, hall⟩
        · refine ⟨v :: l1, l2, by simp [heq], lt_trans hrb h, ?_, h2⟩
          intro x hx
          rcases List.mem_cons.mp hx with rfl | hx
          · exact hrb
          · exact h1 x hx
      · have hstep : scanStep d (b, some (d b)) v = (b, some (d b)) := by
          simp [scanStep, h]
        obtain ⟨r, hfold, hcase⟩ := ih b
        refine ⟨r, by rw [List.foldl_cons, hstep]; exact hfold, ?_⟩
        rcases hcase with ⟨rfl, hall⟩ | ⟨l1, l2, heq, hrb, h1, h2⟩
        · refine Or.inl ⟨rfl, ?_⟩
          intro x hx
          rcases List.mem_cons.mp hx with rfl | hx
          · exact le_of_not_lt h
          · exact hall x hx
        · refine Or.inr ⟨v :: l1, l2, by simp [heq], hrb, ?_, h2⟩
          intro x hx
          rcases List.mem_cons.mp hx with rfl | hx
          · exact lt_of_lt_of_le hrb (le_of_not_lt h)
          · exact h1 x hx

/-- `scanBest` on a nonempty grid returns the first-encountered minimizer of
the distance `d`: strictly better than everything before it, at least as good
as everything after it. -/
lemma scanBest_spec (d : ℝ → ℝ) (c : ℝ) (l : List ℝ) (hl : l ≠ []) :
    ∃ r l1 l2, scanBest d l c = r ∧ l = l1 ++ r :: l2
      ∧ (∀ v ∈ l1, d r < d v) ∧ (∀ v ∈ l2, d r ≤ d v) := by
  cases l with
  | nil => exact absurd rfl hl
  | cons v0 rest =>
      have h0 : scanStep d (c, none) v0 = (v0, some (d v0)) := by simp [scanStep]
      obtain ⟨r, hfold, hcase⟩ := scanBest_go d rest v0
      have hval : scanBest d (v0 :: rest) c = r := by
        unfold scanBest
        rw [List.foldl_cons, h0, hfold]
      rcases hcase with ⟨rfl, hall⟩ | ⟨l1, l2, heq, hrv, h1, h2⟩
      · exact ⟨r, [], rest, hval, by simp, by simp, hall⟩
      · refine ⟨r, v0 :: l1, l2, hval, by simp [heq], ?_, h2⟩
        intro x hx
        rcases List.mem_cons.mp hx with rfl | hx
        · exact hrv
        · exact h1 x hx

lemma magnitudeGridDva_ne_nil : magnitudeGridDva ≠ [] := by
  simp [magnitudeGridDva, linspace, List.range_succ]

/-- C1: on an in-range context whose cell engine yields a well-formed mode
estimate `[alpha, beta, guess, lapse]`, `suggestDeltaForContext` returns the
grid value of `magnitudeGridDva` whose `pWeibull` probability is closest to
the target; on ties the first-encountered (smaller-index) grid value wins:
the returned value beats every earlier grid value strictly and every later
one weakly. -/
theorem C1_proposal_targets {E : Type} (ops : EngineOps E)
    (engines : List (List (List E))) (ctx : Context) (target : ℝ)
    (eng : E) (est : List ℝ)
    (hidx : ¬((contextToIndices ctx).soaIdx < 0 ∨ (contextToIndices ctx).eccIdx < 0
      ∨ (contextToIndices ctx).angIdx < 0))
    (heng : gridGet? engines (contextToIndices ctx).soaIdx.toNat
      (contextToIndices ctx).eccIdx.toNat (contextToIndices ctx).angIdx.toNat = some eng)
    (hest : ops.getEstimatesMode eng = Except.ok (some est))
    (hlen : 4 ≤ est.length) :
    ∃ r l1 l2, suggestDeltaForContext ops engines ctx target = some r
      ∧ magnitudeGridDva = l1 ++ r :: l2
      ∧ (∀ v ∈ l1,
          |pWeibull r (est.getD 0 0) (est.getD 1 0) (est.getD 2 0) (est.getD 3 0) - target|
            < |pWeibull v (est.getD 0 0) (est.getD 1 0) (est.getD 2 0) (est.getD 3 0) - target|)
      ∧ (∀ v ∈ l2,
          |pWeibull r (est.getD 0 0) (est.getD 1 0) (est.getD 2 0) (est.getD 3 0) - target|
            ≤ |pWeibull v (est.getD 0 0) (est.getD 1 0) (est.getD 2 0) (est.getD 3 0) - target|)
      ∧ (∀ v ∈ magnitudeGridDva,
          |pWeibull r (est.getD 0 0) (est.getD 1 0) (est.getD 2 0) (est.getD 3 0) - target|
            ≤ |pWeibull v (est.getD 0 0) (est.getD 1 0) (est.getD 2 0) (est.getD 3 0) - target|) := by
  obtain ⟨r, l1, l2, hscan, heq, h1, h2⟩ :=
    scanBest_spec
      (fun v => |pWeibull v (est.getD 0 0) (est.getD 1 0) (est.getD 2 0) (est.getD 3 0)
        - target|)
      (ops.getStimParams eng) magnitudeGridDva magnitudeGridDva_ne_nil
  refine ⟨r, l1, l2, ?_, heq, h1, h2, ?_⟩
  · simp only [suggestDeltaForContext]
    rw [if_neg hidx, heng, Option.map_some', hest]
    dsimp only
    rw [if_pos hlen, hscan]
  · intro v hv
    rw [heq] at hv
    rcases List.mem_append.mp hv with hv | hv
    · exact (h1 v hv).le
    · rcases List.mem_cons.mp hv with rfl | hv
      · exact le_refl _
      · exact h2 v hv

/-! ## Concrete context evaluations -/

lemma angGroup_zero : angGroup 0 = "E" := by
  unfold angGroup
  have hd : jsMod ((0 : ℝ) * 180 / Real.pi + 360) 360 = 0 := by
    have h1 : (0 : ℝ) * 180 / Real.pi + 360 = 360 := by simp
    rw [h1]
    unfold jsMod jsTrunc
    norm_num
  rw [hd]
  norm_num

lemma soaIdx_150 : findIndexJS (inRange (150 : ℝ)) SOA_BINS = 0 := by
  norm_num [findIndexJS, inRange, SOA_BINS]

lemma eccIdx_50 : findIndexJS (inRange (50 : ℝ)) ECC_BINS = 0 := by
  norm_num [findIndexJS, inRange, ECC_BINS]

lemma angIdx_of_zero : findIndexJS (fun g => angGroup 0 = g) ANG_LETTERS = 0 := by
  simp [ANG_LETTERS, findIndexJS, angGroup_zero]

lemma soaIdx_1000 : findIndexJS (inRange (1000 : ℝ)) SOA_BINS = -1 := by
  norm_num [findIndexJS, inRange, SOA_BINS]

lemma ctxIn_eval : contextToIndices ⟨150, 50, 0⟩ = ⟨0, 0, 0⟩ := by
  unfold contextToIndices
  rw [show (Context.mk 150 50 0).soaMs = (150 : ℝ) from rfl,
    show (Context.mk 150 50 0).eccPx = (50 : ℝ) from rfl,
    show (Context.mk 150 50 0).thetaRad = (0 : ℝ) from rfl,
    soaIdx_150, eccIdx_50, angIdx_of_zero]

lemma ctxOut_eval : contextToIndices ⟨1000, 50, 0⟩ = ⟨-1, 0, 0⟩ := by
  unfold contextToIndices
  rw [show (Context.mk 1000 50 0).soaMs = (1000 : ℝ) from rfl,
    show (Context.mk 1000 50 0).eccPx = (50 : ℝ) from rfl,
    show (Context.mk 1000 50 0).thetaRad = (0 : ℝ) from rfl,
    soaIdx_1000, eccIdx_50, angIdx_of_zero]

/-- A trivial single-engine model used to instantiate the abstract engine
interface in concrete checks. -/
def unitOps : EngineOps Unit :=
  { getStimParams := fun _ => 0.5
    getEstimatesMode := fun _ => Except.ok (some [1, 3, 0, 0.01])
    getEstimatesMean := fun _ => Except.ok (some [1.5, 3])
    update := fun e _ _ => Except.ok e }

/-- C1 witness: a concrete in-range context, a one-cell engine grid, and a
concrete degenerate estimate `[1, 3, 0, 0.01]`. -/
theorem C1_proposal_targets_witness :
    (¬((contextToIndices ⟨150, 50, 0⟩).soaIdx < 0
        ∨ (contextToIndices ⟨150, 50, 0⟩).eccIdx < 0
        ∨ (contextToIndices ⟨150, 50, 0⟩).angIdx < 0))
      ∧ unitOps.getEstimatesMode () = Except.ok (some [1, 3, 0, 0.01])
      ∧ 4 ≤ ([1, 3, 0, 0.01] : List ℝ).length
      ∧ (∃ r l1 l2,
          suggestDeltaForContext unitOps [[[()]]] ⟨150, 50, 0⟩ 0.7 = some r
          ∧ magnitudeGridDva = l1 ++ r :: l2
          ∧ (∀ v ∈ l1,
              |pWeibull r (([1, 3, 0, 0.01] : List ℝ).getD 0 0)
                (([1, 3, 0, 0.01] : List ℝ).getD 1 0) (([1, 3, 0, 0.01] : List ℝ).getD 2 0)
                (([1, 3, 0, 0.01] : List ℝ).getD 3 0) - 0.7|
                < |pWeibull v (([1, 3, 0, 0.01] : List ℝ).getD 0 0)
                  (([1, 3, 0, 0.01] : List ℝ).getD 1 0) (([1, 3, 0, 0.01] : List ℝ).getD 2 0)
                  (([1, 3, 0, 0.01] : List ℝ).getD 3 0) - 0.7|)
          ∧ (∀ v ∈ l2,
              |pWeibull r (([1, 3, 0, 0.01] : List ℝ).getD 0 0)
                (([1, 3, 0, 0.01] : List ℝ).getD 1 0) (([1, 3, 0, 0.01] : List ℝ).getD 2 0)
                (([1, 3, 0, 0.01] : List ℝ).getD 3 0) - 0.7|
                ≤ |pWeibull v (([1, 3, 0, 0.01] : List ℝ).getD 0 0)
                  (([1, 3, 0, 0.01] : List ℝ).getD 1 0) (([1, 3, 0, 0.01] : List ℝ).getD 2 0)
                  (([1, 3, 0, 0.01] : List ℝ).getD 3 0) - 0.7|)
          ∧ (∀ v ∈ magnitudeGridDva,
              |pWeibull r (([1, 3, 0, 0.01] : List ℝ).getD 0 0)
                (([1, 3, 0, 0.01] : List ℝ).getD 1 0) (([1, 3, 0, 0.01] : List ℝ).getD 2 0)
                (([1, 3, 0, 0.01] : List ℝ).getD 3 0) - 0.7|
                ≤ |pWeibull v (([1, 3, 0, 0.01] : List ℝ).getD 0 0)
                  (([1, 3, 0, 0.01] : List ℝ).getD 1 0) (([1, 3, 0, 0.01] : List ℝ).getD 2 0)
                  (([1, 3, 0, 0.01] : List ℝ).getD 3 0) - 0.7|)) := by
  have hidx : ¬((contextToIndices ⟨150, 50, 0⟩).soaIdx < 0
      ∨ (contextToIndices ⟨150, 50, 0⟩).eccIdx < 0
      ∨ (contextToIndices ⟨150, 50, 0⟩).angIdx < 0) := by
    rw [ctxIn_eval]
    norm_num
  have heng : gridGet? [[[()]]] (contextToIndices ⟨150, 50, 0⟩).soaIdx.toNat
      (contextToIndices ⟨150, 50, 0⟩).eccIdx.toNat
      (contextToIndices ⟨150, 50, 0⟩).angIdx.toNat = some () := by
    rw [ctxIn_eval]
    rfl
  exact ⟨hidx, rfl, by norm_num,
    C1_proposal_targets unitOps [[[()]]] ⟨150, 50, 0⟩ 0.7 () [1, 3, 0, 0.01]
      hidx heng rfl (by norm_num)⟩

/-- C6: on a context with any unmatched dimension, `updateQuestWithOutcome`
leaves the engine state unchanged and `suggestDeltaForContext` returns the
configured fallback intensity 0.6, whatever the target probability. -/
theorem C6_unmatched_noop {E : Type} (ops : EngineOps E)
    (engines : List (List (List E))) (ctx : Context) (delta : ℝ) (responded : Bool)
    (target : ℝ)
    (h : (contextToIndices ctx).soaIdx < 0 ∨ (contextToIndices ctx).eccIdx < 0
      ∨ (contextToIndices ctx).angIdx < 0) :
    updateQuestWithOutcome ops engines ctx delta responded = engines
      ∧ suggestDeltaForContext ops engines ctx target = some 0.6 := by
  constructor
  · simp only [updateQuestWithOutcome]
    rw [if_pos h]
  · simp only [suggestDeltaForContext]
    rw [if_pos h]

/-- C6 witness: `soaMs = 1000` falls outside every SOA bin. -/
theorem C6_unmatched_noop_witness :
    ((contextToIndices ⟨1000, 50, 0⟩).soaIdx < 0
        ∨ (contextToIndices ⟨1000, 50, 0⟩).eccIdx < 0
        ∨ (contextToIndices ⟨1000, 50, 0⟩).angIdx < 0)
      ∧ (updateQuestWithOutcome unitOps [[[()]]] ⟨1000, 50, 0⟩ 0.2 true = [[[()]]]
          ∧ suggestDeltaForContext unitOps [[[()]]] ⟨1000, 50, 0⟩ 0.9 = some 0.6) := by
  have h : (contextToIndices ⟨1000, 50, 0⟩).soaIdx < 0
      ∨ (contextToIndices ⟨1000, 50, 0⟩).eccIdx < 0
      ∨ (contextToIndices ⟨1000, 50, 0⟩).angIdx < 0 := by
    rw [ctxOut_eval]
    norm_num
  exact ⟨h, C6_unmatched_noop unitOps [[[()]]] ⟨1000, 50, 0⟩ 0.2 true 0.9 h⟩

/-! ## Prior normalization (C3) -/

lemma foldl_add_eq_sum (l : List ℝ) : ∀ a : ℝ, l.foldl (· + ·) a = a + l.sum := by
  induction l with
  | nil => intro a; simp
  | cons x t ih =>
      intro a
      rw [List.foldl_cons, ih, List.sum_cons]
      ring

lemma sum_map_div (l : List ℝ) (z : ℝ) : (l.map fun p => p / z).sum = l.sum / z := by
  induction l with
  | nil => simp
  | cons a t ih => simp [ih, add_div]

/-- Normalizing a list of positive values by its sum (with the `|| 1` guard of
the source on a zero sum) yields a vector summing to 1. -/
lemma normalize_sum_one (pdf : List ℝ) (hpos : ∀ p ∈ pdf, 0 < p) (hne : pdf ≠ []) :
    (pdf.map fun p =>
        p / (if pdf.foldl (· + ·) 0 = 0 then 1 else pdf.foldl (· + ·) 0)).sum = 1 := by
  have hsum : 0 < pdf.sum := List.sum_pos pdf hpos hne
  have hfold : pdf.foldl (· + ·) 0 = pdf.sum := by rw [foldl_add_eq_sum]; ring
  rw [hfold, if_neg (ne_of_gt hsum), sum_map_div, div_self (ne_of_gt hsum)]

/-- C3 (amended): for every nonempty alpha grid of positive candidates and
every cell's bin indices, `alphaPriorOnGrid` at the source's default shape
parameters returns a vector over the grid that sums to 1 (every log-normal
density on such a grid is strictly positive, so the zero-density guard is
never taken). -/
theorem C3_prior_normalized (alphaGrid : List ℝ) (soaIdx eccIdx angIdx : ℕ) (base : ℝ)
    (hne : alphaGrid ≠ []) (hpos : ∀ a ∈ alphaGrid, 0 < a) :
    (alphaPriorOnGridD alphaGrid soaIdx eccIdx angIdx base).sum = 1 := by
  simp only [alphaPriorOnGridD, alphaPriorOnGrid]
  apply normalize_sum_one
  · intro p hp
    obtain ⟨a, ha, rfl⟩ := List.mem_map.mp hp
    have hapos := hpos a ha
    unfold lognormPdf
    have hpi : (0 : ℝ) < Real.sqrt (2 * Real.pi) :=
      Real.sqrt_pos.mpr (by positivity)
    positivity
  · simpa using hne

/-- C3 witness: the one-point positive grid `[1]`. -/
theorem C3_prior_normalized_witness :
    ([1] : List ℝ) ≠ [] ∧ (∀ a ∈ ([1] : List ℝ), 0 < a)
      ∧ (alphaPriorOnGridD [1] 0 0 0 0.6).sum = 1 :=
  ⟨by simp, by norm_num, C3_prior_normalized [1] 0 0 0 0.6 (by simp) (by norm_num)⟩

/-- C3 counterexample: on the grid `[0]` every computed density is zero, yet
the function returns the zero vector `[0]` — which is not the uniform vector
over the grid and does not sum to 1.  (The source's `|| 1` guard divides the
unnormalized densities by 1; it does not fall back to a uniform vector.) -/
theorem C3_counterexample :
    (∀ mu : ℝ, lognormPdf mu 0.35 0 = 0)
      ∧ alphaPriorOnGridD [0] 0 0 0 0.6 = [0]
      ∧ alphaPriorOnGridD [0] 0 0 0 0.6 ≠ uniformVectorSpec [0]
      ∧ (alphaPriorOnGridD [0] 0 0 0 0.6).sum ≠ 1 := by
  have h0 : ∀ mu : ℝ, lognormPdf mu 0.35 0 = 0 := by
    intro mu
    unfold lognormPdf
    norm_num
  have hval : alphaPriorOnGridD [0] 0 0 0 0.6 = [0] := by
    simp only [alphaPriorOnGridD, alphaPriorOnGrid, List.map_cons, List.map_nil, h0]
    norm_num
  refine ⟨h0, hval, ?_, ?_⟩
  · rw [hval]
    norm_num [uniformVectorSpec]
  · rw [hval]
    norm_num

/-! ## Posterior export (C4) -/

/-- Engine operations that always throw, to exhibit the `catch {}` path. -/
def errOps : EngineOps Unit :=
  { getStimParams := fun _ => 0.5
    getEstimatesMode := fun _ => Except.error ()
    getEstimatesMean := fun _ => Except.error ()
    update := fun _ _ _ => Except.error () }

/-- C4 counterexample: a one-cell partition whose engine's `getEstimates`
throws.  The claim requires one record for that cell (with null fields); the
source's `try { ... push ... } catch {}` skips the push, so the export is
empty and the cell is omitted. -/
theorem C4_counterexample :
    gridGet? ([[[()]]] : List (List (List Unit))) 0 0 0 = some ()
      ∧ exportPosteriors errOps [[[()]]] = [] :=
  ⟨rfl, rfl⟩

lemma filterMap_eq_map_of {α β : Type} (g : α → Option β) (g' : α → β)
    (hg : ∀ x, g x = some (g' x)) : ∀ l : List α, l.filterMap g = l.map g' := by
  intro l
  induction l with
  | nil => rfl
  | cons a t ih => simp [List.filterMap_cons, hg, ih]

/-- C4 (amended): whenever no cell's estimate retrieval throws,
`exportPosteriors` produces exactly one record per cell of the partition, in
partition order, carrying the cell's indices and its posterior-mean alpha and
beta as optional values (null when the estimate or its entries are absent);
cells whose retrieval throws are omitted from the export (see the
counterexample), and the export reads but never alters the engine grid. -/
theorem C4_export_records {E : Type} (ops : EngineOps E) (f : E → Option (List ℝ))
    (engines : List (List (List E)))
    (h : ∀ e : E, ops.getEstimatesMean e = Except.ok (f e)) :
    exportPosteriors ops engines
      = engines.enum.flatMap fun p =>
          p.2.enum.flatMap fun q =>
            q.2.enum.map fun r =>
              ⟨"vector", p.1, q.1, r.1, (f r.2).bind fun l => l.get? 0,
                (f r.2).bind fun l => l.get? 1⟩ := by
  unfold exportPosteriors
  congr 1
  funext p
  congr 1
  funext q
  refine filterMap_eq_map_of _ _ ?_ q.2.enum
  intro r
  rw [h r.2]

/-- C4 witness: a 1×1×2 grid whose cells all return the estimate `[1.5, 3]`. -/
theorem C4_export_records_witness :
    (∀ e : Unit, unitOps.getEstimatesMean e = Except.ok (some [1.5, 3]))
      ∧ exportPosteriors unitOps [[[(), ()]]]
          = ([[[(), ()]]] : List (List (List Unit))).enum.flatMap fun p =>
              p.2.enum.flatMap fun q =>
                q.2.enum.map fun r =>
                  ⟨"vector", p.1, q.1, r.1,
                    ((some [1.5, 3] : Option (List ℝ)).bind fun l => l.get? 0),
                    ((some [1.5, 3] : Option (List ℝ)).bind fun l => l.get? 1)⟩ :=
  ⟨fun _ => rfl,
    C4_export_records unitOps (fun _ => some [1.5, 3]) [[[(), ()]]] (fun _ => rfl)⟩

/-! ## Psychometric monotonicity and asymptote (C7) -/

/-- C7: for fixed `alpha > 0`, `beta > 0` and `1 - guess - lapse > 0`, the
Weibull psychometric function is strictly increasing in the stimulus on
`(0, ∞)` and tends to `1 - lapse` at infinity. -/
theorem C7_psychometric_monotone (alpha beta guess lapse : ℝ)
    (halpha : 0 < alpha) (hbeta : 0 < beta) (hc : 0 < 1 - guess - lapse) :
    (∀ s1 s2, 0 < s1 → s1 < s2 →
        pWeibull s1 alpha beta guess lapse < pWeibull s2 alpha beta guess lapse)
      ∧ Filter.Tendsto (fun s => pWeibull s alpha beta guess lapse)
          Filter.atTop (nhds (1 - lapse)) := by
  constructor
  · intro s1 s2 hs1 h12
    unfold pWeibull
    have hx1 : (0 : ℝ) < s1 / alpha := div_pos hs1 halpha
    have hx12 : s1 / alpha < s2 / alpha := by
      exact div_lt_div_of_pos_right h12 halpha
    have hrpow : (s1 / alpha) ^ beta < (s2 / alpha) ^ beta :=
      Real.rpow_lt_rpow hx1.le hx12 hbeta
    have hexp : Real.exp (-((s2 / alpha) ^ beta)) < Real.exp (-((s1 / alpha) ^ beta)) :=
      Real.exp_lt_exp.mpr (by linarith)
    nlinarith [mul_pos hc (sub_pos.mpr hexp)]
  · have h1 : Filter.Tendsto (fun s : ℝ => s / alpha) Filter.atTop Filter.atTop :=
      Filter.tendsto_id.atTop_div_const halpha
    have h3 : Filter.Tendsto (fun s : ℝ => (s / alpha) ^ beta)
        Filter.atTop Filter.atTop := (tendsto_rpow_atTop hbeta).comp h1
    have h4 : Filter.Tendsto (fun s : ℝ => Real.exp (-((s / alpha) ^ beta)))
        Filter.atTop (nhds 0) := Real.tendsto_exp_neg_atTop_nhds_zero.comp h3
    have h5 : Filter.Tendsto
        (fun s : ℝ => guess + (1 - guess - lapse) * (1 - Real.exp (-((s / alpha) ^ beta))))
        Filter.atTop (nhds (guess + (1 - guess - lapse) * (1 - 0))) :=
      ((h4.const_sub 1).const_mul (1 - guess - lapse)).const_add guess
    unfold pWeibull
    convert h5 using 2
    ring

/-- C7 witness: `alpha = 1`, `beta = 1`, `guess = 0`, `lapse = 0`. -/
theorem C7_psychometric_monotone_witness :
    (0 : ℝ) < 1 ∧ (0 : ℝ) < 1 ∧ (0 : ℝ) < 1 - 0 - 0
      ∧ ((∀ s1 s2 : ℝ, 0 < s1 → s1 < s2 → pWeibull s1 1 1 0 0 < pWeibull s2 1 1 0 0)
        ∧ Filter.Tendsto (fun s => pWeibull s 1 1 0 0) Filter.atTop (nhds (1 - 0))) :=
  ⟨by norm_num, by norm_num, by norm_num,
    C7_psychometric_monotone 1 1 0 0 (by norm_num) (by norm_num) (by norm_num)⟩

end

end Psychophysics
